import Mathlib

/-!
Verification of the workflow execution engine of the `ohs` repository
(`mcp/core/workflow_engine.py`, `mcp/executors/*`, `mcp/models/workflow.py`)
against its natural-language specification.

The Python source is shallowly embedded: JSON values become the inductive
`JValue`, Python dicts become ordered association lists (`dictLookup` /
`dictInsert`, which reproduce dict insertion-order and overwrite semantics),
fallible Python code becomes `Except String`, and the engine's recursive
graph traversal becomes a fuel-indexed total function whose fuel is shown to
be irrelevant beyond the node count (the termination argument of the source).
All definitions are executable; theorems are stated over them.
-/

namespace OhsSpec

/-! ### JSON values and dict operations

`JValue` models the JSON-like `Any` values flowing through the engine
(Python `None`/`bool`/`int`/`str`/`list`/`dict`).  Python dicts are modelled
as ordered association lists with unique keys; `dictInsert` reproduces
`d[k] = v` (replace in place, else append) and `dictLookup` reproduces
`d.get(k)` / `k in d`. -/

inductive JValue where
  | jnull
  | jbool (b : Bool)
  | jnum (n : Int)
  | jstr (s : String)
  | jarr (items : List JValue)
  | jobj (fields : List (String × JValue))

def dictLookup {α : Type} (k : String) : List (String × α) → Option α
  | [] => none
  | (k', v) :: rest => if k' = k then some v else dictLookup k rest

def dictInsert {α : Type} (k : String) (v : α) : List (String × α) → List (String × α)
  | [] => [(k, v)]
  | (k', v') :: rest => if k' = k then (k, v) :: rest else (k', v') :: dictInsert k v rest

/-! ### String helpers

Kernel-reducible char-list implementations of the Python string operations
the embedded code uses: `path.split(".")`, `str.isdigit()`, `int(str)`,
`key.startswith("$")`, and `os.path.basename` (POSIX). -/

def splitDotAux : List Char → List Char → List String
  | [], acc => [String.mk acc.reverse]
  | c :: rest, acc =>
    if c = '.' then String.mk acc.reverse :: splitDotAux rest []
    else splitDotAux rest (acc ++ [c])

/-- `path.split(".")`: split on every occurrence of `'.'`, keeping empty parts. -/
def splitDot (s : String) : List String := splitDotAux s.data []

/-- `part.isdigit()` (restricted to ASCII digits, which is what paths use). -/
def isDigitsOnly (s : String) : Bool := !s.data.isEmpty && s.data.all Char.isDigit

/-- `int(part)` for a digit string. -/
def digitsToNat (s : String) : Nat := s.data.foldl (fun n c => 10 * n + (c.toNat - '0'.toNat)) 0

/-- `key.startswith("$")`. -/
def startsWithDollar (s : String) : Bool :=
  match s.data with
  | '$' :: _ => true
  | _ => false

/-! ### TransformationNodeExecutor: `_select_value` and `_apply_json_template`
(`mcp/executors/transformation_executor.py`, lines 90-154). -/

/-- The path-traversal loop of `_select_value`: a dict is entered by key, a
list by an all-digit index (out of range returns `None`); anything else
returns `None`.  Python's `None` is the same value as JSON `null` here, so
misses return `.jnull`. -/
def selectSteps : JValue → List String → JValue
  | cur, [] => cur
  | cur, part :: rest =>
    match cur with
    | .jobj fields =>
      match dictLookup part fields with
      | some v => selectSteps v rest
      | none => .jnull
    | .jarr items =>
      if isDigitsOnly part then
        match items.get? (digitsToNat part) with
        | some v => selectSteps v rest
        | none => .jnull
      else .jnull
    | _ => .jnull

/-- `_select_value(data, path)`: split the path on `"."` and traverse. -/
def selectValue (data : JValue) (path : String) : JValue :=
  selectSteps data (splitDot path)

/-! `_apply_json_template(input_data, template)` / its object-field loop /
its list comprehension.  The Python recursion is structural on the template;
the `Nat` argument is recursion fuel, consumed at every call, so any fuel at
least the template depth (in particular its size) gives the source
behaviour.  A `$transform` whose dict value lacks a `"template"` key raises
`KeyError` in Python, modelled by `Except.error`; a `$`-key that matches no
operator clause is silently skipped, exactly as the `if`/`elif` chain does. -/
mutual

def applyJsonTemplate : Nat → JValue → JValue → Except String JValue
  | 0, _, _ => .error "recursion limit exceeded"
  | fuel + 1, input, .jobj fields => applyObjFields fuel input fields []
  | fuel + 1, input, .jarr items => (applyArrayItems fuel input items).map JValue.jarr
  | _ + 1, _, t => .ok t

def applyObjFields : Nat → JValue → List (String × JValue) → List (String × JValue) →
    Except String JValue
  | 0, _, _, _ => .error "recursion limit exceeded"
  | _ + 1, _, [], acc => .ok (.jobj acc.reverse)
  | fuel + 1, input, (k, v) :: rest, acc =>
    if startsWithDollar k then
      if k = "$value" then .ok input
      else if k = "$select" then
        match v with
        | .jstr path => .ok (selectValue input path)
        | _ => applyObjFields fuel input rest acc
      else if k = "$transform" then
        match v with
        | .jobj tfields =>
          match dictLookup "template" tfields with
          | some t => applyJsonTemplate fuel input t
          | none => .error "KeyError: template"
        | _ => applyObjFields fuel input rest acc
      else applyObjFields fuel input rest acc
    else
      match applyJsonTemplate fuel input v with
      | .ok v' => applyObjFields fuel input rest ((k, v') :: acc)
      | .error e => .error e

def applyArrayItems : Nat → JValue → List JValue → Except String (List JValue)
  | 0, _, _ => .error "recursion limit exceeded"
  | _ + 1, _, [] => .ok []
  | fuel + 1, input, x :: xs =>
    match applyJsonTemplate fuel input x with
    | .ok y => (applyArrayItems fuel input xs).map (fun ys => y :: ys)
    | .error e => .error e

end

/-! ### Workflow data model (`mcp/models/workflow.py`)

Layout-only fields (`position`, `width`, `height`, `icon`, workflow metadata,
timestamps) are omitted: the engine never reads them.  `NodeData.outputs`
keeps only the output ids, the single field of `NodeOutput` the engine
reads. -/

inductive NodeType where
  | trigger | action | condition | transformation | aiModel | dataSource | output
deriving DecidableEq

inductive ConnectionType where
  | success | error | default
deriving DecidableEq

structure NodeInput where
  id : String
  required : Bool
  default : Option JValue

structure NodeData where
  label : String
  inputs : List NodeInput
  outputs : List String
  config : List (String × JValue)

structure Node where
  id : String
  type : NodeType
  data : NodeData

structure Edge where
  id : String
  source : String
  target : String
  type : ConnectionType

structure Workflow where
  id : String
  nodes : List Node
  edges : List Edge

inductive ExecutionStatus where
  | pending | running | completed | failed | cancelled
deriving DecidableEq

/-- `NodeExecutionResult` (status is the string `"running"`/`"success"`/
`"error"`; wall-clock fields `started_at`/`completed_at`/`execution_time`
are omitted as pure timestamps). -/
structure NodeExecutionResult where
  node_id : String
  status : String
  output : Option (List (String × JValue))
  error : Option String

/-! ### WorkflowEngine traversal (`mcp/core/workflow_engine.py`, lines 149-291)

Per-run mutable state: `execution.results` plus the `execution_context`
dict built at line 119 (`context["input"]` is never written, so it is passed
as a separate constant parameter).  The ghost field `invoked` is proof
instrumentation only: it records, in order, the node ids whose executor was
invoked (the claims about memoization count executor invocations). -/

structure ExecState where
  results : List (String × NodeExecutionResult)
  ctxResults : List (String × JValue)
  ctxErrors : List (String × String)
  invoked : List String

def initialExecState : ExecState := ⟨[], [], [], []⟩

/-- The context dict as the executor sees it. -/
structure ExecutorCtx where
  input : List (String × JValue)
  results : List (String × JValue)
  errors : List (String × String)

/-- The composite of `node_executor_factory.get_executor(node.type)` and
`executor.execute(node, node_inputs, context)`: an abstract collaborator
returning the output dict or raising.  (A `get_executor` `ValueError` is one
more way for this call to fail inside the same `try`.) -/
abbrev ExecutorFn :=
  Node → List (String × JValue) → ExecutorCtx → Except String (List (String × JValue))

/-- Input-resolution loop of `_execute_node` (lines 187-197): precedence is
`context["input"]`, then `node.data.config`, then a non-`None` declared
default; a still-missing required input raises `ValueError`. -/
def prepareInputsGo (ctxInput : List (String × JValue)) (node : Node) :
    List NodeInput → List (String × JValue) → Except String (List (String × JValue))
  | [], acc => .ok acc
  | spec :: rest, acc =>
    match dictLookup spec.id ctxInput with
    | some v => prepareInputsGo ctxInput node rest (dictInsert spec.id v acc)
    | none =>
      match dictLookup spec.id node.data.config with
      | some v => prepareInputsGo ctxInput node rest (dictInsert spec.id v acc)
      | none =>
        match spec.default with
        | some d => prepareInputsGo ctxInput node rest (dictInsert spec.id d acc)
        | none =>
          if spec.required then
            .error ("Required input " ++ spec.id ++ " not provided for node " ++ node.id)
          else prepareInputsGo ctxInput node rest acc

def prepareInputs (ctxInput : List (String × JValue)) (node : Node) :
    Except String (List (String × JValue)) :=
  prepareInputsGo ctxInput node node.data.inputs []

/-- Lines 211-213: publish each declared output present in the returned
output dict into `context["results"]` under `"{nodeId}.{outputId}"`. -/
def publishOutputs (nodeId : String) (outputIds : List String)
    (output : List (String × JValue)) (ctxResults : List (String × JValue)) :
    List (String × JValue) :=
  outputIds.foldl (fun acc oid =>
    match dictLookup oid output with
    | some v => dictInsert (nodeId ++ "." ++ oid) v acc
    | none => acc) ctxResults

def runningStub (nid : String) : NodeExecutionResult := ⟨nid, "running", none, none⟩

def errorResult (nid msg : String) : NodeExecutionResult := ⟨nid, "error", none, some msg⟩

def successResult (nid : String) (output : List (String × JValue)) : NodeExecutionResult :=
  ⟨nid, "success", some output, none⟩

/-- Line 178: `execution.results[node.id] = result` with the `running` stub. -/
def insertStub (nid : String) (st : ExecState) : ExecState :=
  { st with results := dictInsert nid (runningStub nid) st.results }

/-- Lines 224-230: the result object is mutated to `error`, and the message
recorded in `context["errors"][node.id]`. -/
def recordNodeError (nid msg : String) (st : ExecState) : ExecState :=
  { st with results := dictInsert nid (errorResult nid msg) st.results,
            ctxErrors := dictInsert nid msg st.ctxErrors }

/-- Lines 204-213: the result object is mutated to `success` and outputs are
published. -/
def recordNodeSuccess (node : Node) (output : List (String × JValue)) (st : ExecState) :
    ExecState :=
  { st with results := dictInsert node.id (successResult node.id output) st.results,
            ctxResults := publishOutputs node.id node.data.outputs output st.ctxResults }

/-- Ghost instrumentation: the executor is about to be invoked for `nid`. -/
def markInvoked (nid : String) (st : ExecState) : ExecState :=
  { st with invoked := st.invoked ++ [nid] }

/-- Line 254-257: outgoing edges followed on success (`edge.type != "error"`). -/
def defaultEdges (w : Workflow) (nid : String) : List Edge :=
  w.edges.filter (fun e => decide (e.source = nid ∧ e.type ≠ ConnectionType.error))

/-- Line 282-285: outgoing edges followed on failure (`edge.type == "error"`). -/
def errorEdges (w : Workflow) (nid : String) : List Edge :=
  w.edges.filter (fun e => decide (e.source = nid ∧ e.type = ConnectionType.error))

/-- `_execute_node` (lines 149-235) together with the edge loops of
`_execute_connected_nodes` / `_execute_error_edges` (lines 237-291).  The
Python recursion has no fuel; the `Nat` argument is consumed once per node
entry, and `executeNode_fuel_stable` below shows any fuel beyond the node
count gives the same answer, which is the source's termination argument.
A node already present in `execution.results` returns its memoized result
without touching any state.  Both exception sources inside the `try`
(input validation and the executor call) take the error path: record the
error in the result and in `context["errors"]`, then follow error edges
only.  Edge targets are resolved by the first matching node
(`next((n for n in workflow.nodes if n.id == edge.target), None)`); a
dangling target is skipped. -/
def executeNode (ex : ExecutorFn) (w : Workflow) (input : List (String × JValue)) :
    Nat → Node → ExecState → ExecState
  | 0, _, st => st
  | fuel + 1, node, st =>
    match dictLookup node.id st.results with
    | some _ => st
    | none =>
      let st1 := insertStub node.id st
      match prepareInputs input node with
      | .error msg =>
        (errorEdges w node.id).foldl (fun s e =>
          match w.nodes.find? (fun n => n.id == e.target) with
          | some t => executeNode ex w input fuel t s
          | none => s) (recordNodeError node.id msg st1)
      | .ok nodeInputs =>
        let st2 := markInvoked node.id st1
        match ex node nodeInputs ⟨input, st2.ctxResults, st2.ctxErrors⟩ with
        | .error msg =>
          (errorEdges w node.id).foldl (fun s e =>
            match w.nodes.find? (fun n => n.id == e.target) with
            | some t => executeNode ex w input fuel t s
            | none => s) (recordNodeError node.id msg st2)
        | .ok output =>
          (defaultEdges w node.id).foldl (fun s e =>
            match w.nodes.find? (fun n => n.id == e.target) with
            | some t => executeNode ex w input fuel t s
            | none => s) (recordNodeSuccess node output st2)

/-- The shared edge-target loop, as a named function for stating lemmas;
`executeNode` at positive fuel unfolds to it (see the equation lemmas). -/
def executeEdgeList (ex : ExecutorFn) (w : Workflow) (input : List (String × JValue))
    (fuel : Nat) (es : List Edge) (st : ExecState) : ExecState :=
  es.foldl (fun s e =>
    match w.nodes.find? (fun n => n.id == e.target) with
    | some t => executeNode ex w input fuel t s
    | none => s) st

/-- Outcome of one background worker run (`_execute_workflow_task`,
lines 105-147, without cancellation): final status, terminal error, final
traversal state.  The record's transient `running` status is an
intermediate value of the same block. -/
structure RunOutcome where
  status : ExecutionStatus
  error : Option String
  finalState : ExecState

/-- Lines 110-132: find trigger nodes, fail the run if there are none,
otherwise visit each trigger in `workflow.nodes` order and complete.  Node
errors are caught inside `_execute_node`, so only the structural
no-trigger error can fail the run here.  The traversal fuel
`w.nodes.length + 1` is sufficient by `executeNode_fuel_stable`. -/
def runWorkflowTask (ex : ExecutorFn) (w : Workflow) (input : List (String × JValue)) :
    RunOutcome :=
  let triggerNodes := w.nodes.filter (fun n => decide (n.type = NodeType.trigger))
  if triggerNodes.isEmpty then
    ⟨.failed, some "Workflow must have at least one trigger node", initialExecState⟩
  else
    ⟨.completed, none,
      triggerNodes.foldl
        (fun st t => executeNode ex w input (w.nodes.length + 1) t st) initialExecState⟩

/-! ### Execution records, ids, the active-executions table, cancellation
(`mcp/core/workflow_engine.py`, lines 58-90 and 293-333). -/

/-- `WorkflowExecution` (timestamps and `user_id` omitted). -/
structure ExecutionRecord where
  id : String
  workflow_id : String
  status : ExecutionStatus
  results : List (String × NodeExecutionResult)
  input : List (String × JValue)
  error : Option String

/-- Line 73: `f"exec_{int(time.time() * 1000)}"`.  The wall clock is modelled
in whole microseconds; `int(time.time() * 1000)` truncates it to whole
milliseconds, which is `Nat` division by 1000. -/
def makeExecutionId (nowUs : Nat) : String := "exec_" ++ toString (nowUs / 1000)

/-- Lines 72-79: the fresh `pending` record built by `execute_workflow`. -/
def newExecution (workflowId : String) (nowUs : Nat) (input : List (String × JValue)) :
    ExecutionRecord :=
  ⟨makeExecutionId nowUs, workflowId, .pending, [], input, none⟩

/-- The handle stored in `self.active_executions`: the `asyncio.Task`.
`done` is `task.done()`; `result` is what `await task` yields once done
(`some` record if the coroutine returned, `none` if it raised). -/
structure TaskHandle where
  done : Bool
  result : Option ExecutionRecord

/-- Lines 82-83: `self.active_executions[execution.id] = task` (dict
assignment) after creating the record. -/
def executeWorkflowCall (active : List (String × TaskHandle)) (workflowId : String)
    (nowUs : Nat) (input : List (String × JValue)) (task : TaskHandle) :
    ExecutionRecord × List (String × TaskHandle) :=
  let execution := newExecution workflowId nowUs input
  (execution, dictInsert execution.id task active)

/-- Lines 86-88: the done-callback `self.active_executions.pop(execution.id,
None)` installed at submission; dict keys are unique, so popping the key is
removing every pair with it. -/
def removeActive (active : List (String × TaskHandle)) (id : String) :
    List (String × TaskHandle) :=
  active.filter (fun p => !(p.1 == id))

/-- `get_execution` (lines 293-315): only `self.active_executions` is
consulted; a present, finished task is awaited and its record returned
(an exception from the `await` falls through to `return None`); anything
else returns `None`. -/
def getExecution (active : List (String × TaskHandle)) (id : String) :
    Option ExecutionRecord :=
  match dictLookup id active with
  | some t =>
    if t.done then
      match t.result with
      | some r => some r
      | none => none
    else none
  | none => none

/-- `cancel_execution` (lines 317-333).  The second component is the handle
on which `task.cancel()` was invoked, if any. -/
def cancelExecution (active : List (String × TaskHandle)) (id : String) :
    Bool × Option TaskHandle :=
  match dictLookup id active with
  | some t => if t.done then (false, none) else (true, some t)
  | none => (false, none)

/-- Where the cooperative `CancelledError` is delivered to the worker
coroutine, if at all.  `asyncio` delivers cancellation at a suspension
point; the first suspension of `_execute_workflow_task` is the semaphore
acquire of `async with self.execution_semaphore` (line 105), which sits
OUTSIDE the `try` of line 106. -/
inductive CancelSignal where
  /-- No cancellation during this run. -/
  | never
  /-- `CancelledError` delivered before the coroutine's first step or while
  awaiting the semaphore: raised before the `try` block is entered, so the
  `except asyncio.CancelledError` handler is skipped and the exception
  propagates out of the coroutine. -/
  | beforeTraversal
  /-- `CancelledError` delivered at an `await` inside the `try` block; the
  argument is whatever `execution.results` held at that point. -/
  | duringTraversal (resultsSoFar : List (String × NodeExecutionResult))

/-- `_execute_workflow_task` (lines 92-147) applied to the record, including
the cancellation paths.  On `beforeTraversal` no field of the record is ever
assigned: the record is returned exactly as `execute_workflow` built it. -/
def executeWorkflowTask (ex : ExecutorFn) (w : Workflow) (execution : ExecutionRecord)
    (cancel : CancelSignal) : ExecutionRecord :=
  match cancel with
  | .beforeTraversal => execution
  | .duringTraversal resultsSoFar =>
    { execution with status := .cancelled, error := some "Execution was cancelled",
                     results := resultsSoFar }
  | .never =>
    let out := runWorkflowTask ex w execution.input
    { execution with status := out.status, error := out.error,
                     results := out.finalState.results }

/-! ### NodeExecutorFactory.shutdown (`mcp/executors/node_executor_factory.py`,
lines 46-51). -/

/-- Each constructed executor is a name paired with what its `shutdown()`
does: return or raise.  `factoryShutdown` is the loop
`for node_type, executor in self.executors.items(): await executor.shutdown()`
with no exception handling: it returns the executors whose `shutdown` was
invoked, in order, and the exception that propagated out of the loop, if
any. -/
def factoryShutdown : List (String × Except String Unit) → List String × Option String
  | [] => ([], none)
  | (name, Except.ok _) :: rest =>
    let r := factoryShutdown rest
    (name :: r.1, r.2)
  | (name, Except.error e) :: _ => ([name], some e)

/-! ### DataSourceNodeExecutor path handling
(`mcp/executors/data_source_executor.py`, lines 64-133). -/

/-- `os.path.basename` (POSIX): the part after the last `'/'`. -/
def basenameAux : List Char → List Char → List Char
  | [], acc => acc
  | c :: rest, acc => basenameAux rest (if c = '/' then [] else acc ++ [c])

def basename (p : String) : String := String.mk (basenameAux p.data [])

/-- `os.path.join(a, b)` (POSIX, two components): `b` if it is absolute,
else `a`, a separator if `a` does not already end in one, then `b`.
`startswith`/`endswith` of the single char `'/'` are read off `.data`. -/
def pathJoin (a b : String) : String :=
  if b.data.head? = some '/' then b
  else if a.data.getLast? = some '/' || a = "" then a ++ b
  else a ++ "/" ++ b

/-- Line 117: the path `_execute_file_reader` opens. -/
def fileReaderResolve (storagePath path : String) : String :=
  pathJoin storagePath (basename path)

/-- Line 82: the fixed SQLite file `_execute_database_query` connects to. -/
def databaseQueryPath (storagePath : String) : String := pathJoin storagePath "temp.db"

/-- What a path names on the filesystem: a regular file with contents, or a
directory. -/
inductive FsNode where
  | file (content : String)
  | dir

/-- POSIX path semantics: a path whose final component is empty (trailing
slash or root), `"."`, or `".."` always names a directory, never a regular
file. -/
def PosixDirSemantics (fs : String → Option FsNode) : Prop :=
  ∀ q, basename q = "" ∨ basename q = "." ∨ basename q = ".." →
    ∀ c, fs q ≠ some (FsNode.file c)

/-- `_execute_file_reader` (lines 103-133) over an abstract filesystem:
reject a falsy path, resolve `storage_path` joined with the basename, raise
`ValueError` if nothing exists there (line 120-121), `IsADirectoryError` if
`open(..., "r")` hits a directory, else return the contents. -/
def fileReader (fs : String → Option FsNode) (storagePath path : String) :
    Except String String :=
  if path = "" then .error "Path is required for file reader"
  else
    match fs (fileReaderResolve storagePath path) with
    | none => .error ("File not found: " ++ path)
    | some FsNode.dir => .error "IsADirectoryError"
    | some (FsNode.file content) => .ok content

/-! ### Concurrency model (`WorkflowEngine.__init__` line 35 and
`_execute_workflow_task` lines 105-147)

A small-step system over the engine's runs and the
`asyncio.Semaphore(max_concurrent_executions)`.  One run = one spawned
task; `avail` is the semaphore's free-permit count.  Acquiring the permit
and the immediately following `execution.status = RUNNING` (line 108) are
one step: no `await` separates them.  Likewise, the terminal status is
assigned inside the `async with` block and the permit is released
synchronously on block exit, modelled as one step.  A task cancelled before
entering the `try` finishes without ever holding or releasing the permit
(a cancelled semaphore waiter does not consume a permit). -/

inductive RunPhase where
  | waiting | holding | finished
deriving DecidableEq

structure RunRec where
  status : ExecutionStatus
  phase : RunPhase
deriving DecidableEq

structure SysState where
  avail : Nat
  runs : List RunRec

inductive SysStep : SysState → SysState → Prop where
  /-- `execute_workflow`: spawn a task; its record is `pending`. -/
  | spawn (a : Nat) (runs : List RunRec) :
      SysStep ⟨a, runs⟩ ⟨a, runs ++ [⟨.pending, .waiting⟩]⟩
  /-- A waiting task acquires a permit (possible only when one is free) and
  sets its record `running` (line 108). -/
  | acquire (a : Nat) (pre post : List RunRec) :
      SysStep ⟨a + 1, pre ++ ⟨.pending, .waiting⟩ :: post⟩
              ⟨a, pre ++ ⟨.running, .holding⟩ :: post⟩
  /-- A task holding the permit reaches a terminal status (lines 130, 136,
  143) and releases the permit on leaving the `async with` block. -/
  | finishRun (a : Nat) (pre post : List RunRec) (terminalStatus : ExecutionStatus)
      (hterm : terminalStatus = .completed ∨ terminalStatus = .failed ∨
               terminalStatus = .cancelled) :
      SysStep ⟨a, pre ++ ⟨.running, .holding⟩ :: post⟩
              ⟨a + 1, pre ++ ⟨terminalStatus, .finished⟩ :: post⟩
  /-- A task cancelled while still waiting on the semaphore ends without
  acquiring: its record keeps status `pending` (see `CancelSignal`). -/
  | abortWaiting (a : Nat) (pre post : List RunRec) :
      SysStep ⟨a, pre ++ ⟨.pending, .waiting⟩ :: post⟩
              ⟨a, pre ++ ⟨.pending, .finished⟩ :: post⟩

/-- States reachable from a fresh engine configured with
`max_concurrent_executions = maxConc`. -/
inductive SysReach (maxConc : Nat) : SysState → Prop where
  | init : SysReach maxConc ⟨maxConc, []⟩
  | step {s s' : SysState} : SysReach maxConc s → SysStep s s' → SysReach maxConc s'

def countRunning (runs : List RunRec) : Nat :=
  runs.countP (fun r => decide (r.status = ExecutionStatus.running))

def countHolding (runs : List RunRec) : Nat :=
  runs.countP (fun r => decide (r.phase = RunPhase.holding))

/-! ### Edge reachability (used to state which nodes a traversal may visit). -/

/-- `Reach w a b`: node id `b` is reachable from node id `a` by following
zero or more workflow edges (of any kind). -/
inductive Reach (w : Workflow) : String → String → Prop where
  | refl (a : String) : Reach w a a
  | step {a c : String} (e : Edge) (he : e ∈ w.edges) (hs : e.source = a)
      (h : Reach w e.target c) : Reach w a c

/-! ### Measures and concrete fixtures used by witnesses. -/

def resultKeysF (st : ExecState) : Finset String := (st.results.map Prod.fst).toFinset

def nodeIdsF (w : Workflow) : Finset String := (w.nodes.map Node.id).toFinset

/-- Number of workflow nodes not yet present in `execution.results`: the
decreasing measure of the traversal. -/
def remainingNodes (w : Workflow) (st : ExecState) : Nat :=
  (nodeIdsF w \ resultKeysF st).card

def mkPlainNode (nid : String) (t : NodeType) : Node := ⟨nid, t, ⟨nid, [], [], []⟩⟩

/-- Trigger `A` with a success edge to `B` and an error edge to `C`. -/
def wfBranch : Workflow :=
  ⟨"wf_branch", [mkPlainNode "A" .trigger, mkPlainNode "B" .action, mkPlainNode "C" .action],
   [⟨"e1", "A", "B", .default⟩, ⟨"e2", "A", "C", .error⟩]⟩

/-- An executor collaborator that raises on node `A` and succeeds elsewhere. -/
def exFailA : ExecutorFn := fun n _ _ => if n.id = "A" then .error "boom" else .ok []

/-- A one-node workflow whose trigger has a self-loop (cyclic at node level). -/
def wfCyclic : Workflow := ⟨"wf_cyc", [mkPlainNode "A" .trigger], [⟨"e1", "A", "A", .default⟩]⟩

/-- An executor collaborator that always succeeds with an empty output dict. -/
def exAlwaysOk : ExecutorFn := fun _ _ _ => .ok []

/-- A concrete filesystem for the path-scoping witness: one regular file
inside the storage root, the root itself a directory. -/
def fsDemo : String → Option FsNode := fun q =>
  if q = "/data/notes.txt" then some (FsNode.file "hello")
  else if q = "/data" then some FsNode.dir
  else none

/-! ## Theorems -/

/-! ### Dictionary lemmas. -/

theorem dictLookup_insert_self {α : Type} (k : String) (v : α) (l : List (String × α)) :
    dictLookup k (dictInsert k v l) = some v := by
  induction l with
  | nil => simp [dictInsert, dictLookup]
  | cons p rest ih =>
    obtain ⟨k', v'⟩ := p
    by_cases h : k' = k <;> simp [dictInsert, dictLookup, h, ih]

theorem dictLookup_insert_ne {α : Type} (k k' : String) (v : α) (l : List (String × α))
    (h : k' ≠ k) : dictLookup k' (dictInsert k v l) = dictLookup k' l := by
  induction l with
  | nil => simp [dictInsert, dictLookup, Ne.symm h]
  | cons p rest ih =>
    obtain ⟨k0, v0⟩ := p
    by_cases h0 : k0 = k
    · subst h0
      simp [dictInsert, dictLookup, Ne.symm h]
    · simp [dictInsert, dictLookup, h0, ih]

theorem dictLookup_eq_none_iff {α : Type} (k : String) (l : List (String × α)) :
    dictLookup k l = none ↔ k ∉ l.map Prod.fst := by
  induction l with
  | nil => simp [dictLookup]
  | cons p rest ih =>
    obtain ⟨k0, v0⟩ := p
    by_cases h : k0 = k
    · simp [dictLookup, h]
    · simp [dictLookup, h, ih, Ne.symm h]

theorem map_fst_dictInsert {α : Type} (k : String) (v : α) (l : List (String × α)) :
    ((dictInsert k v l).map Prod.fst).toFinset = insert k (l.map Prod.fst).toFinset := by
  induction l with
  | nil => simp [dictInsert]
  | cons p rest ih =>
    obtain ⟨k0, v0⟩ := p
    by_cases h : k0 = k
    · subst h
      simp [dictInsert]
    · simp [dictInsert, h, ih, Finset.Insert.comm]

/-! ### Equation lemmas for `executeNode`. -/

theorem executeNode_memo (ex : ExecutorFn) (w : Workflow) (input : List (String × JValue))
    (fuel : Nat) (node : Node) (st : ExecState) (r : NodeExecutionResult)
    (hmemo : dictLookup node.id st.results = some r) :
    executeNode ex w input (fuel + 1) node st = st := by
  simp [executeNode, hmemo]

theorem executeNode_prepError (ex : ExecutorFn) (w : Workflow) (input : List (String × JValue))
    (fuel : Nat) (node : Node) (st : ExecState) (msg : String)
    (hfresh : dictLookup node.id st.results = none)
    (hprep : prepareInputs input node = .error msg) :
    executeNode ex w input (fuel + 1) node st =
      executeEdgeList ex w input fuel (errorEdges w node.id)
        (recordNodeError node.id msg (insertStub node.id st)) := by
  simp [executeNode, hfresh, hprep, executeEdgeList]

theorem executeNode_execError (ex : ExecutorFn) (w : Workflow) (input : List (String × JValue))
    (fuel : Nat) (node : Node) (st : ExecState) (msg : String)
    (nodeInputs : List (String × JValue))
    (hfresh : dictLookup node.id st.results = none)
    (hprep : prepareInputs input node = .ok nodeInputs)
    (hex : ex node nodeInputs ⟨input, st.ctxResults, st.ctxErrors⟩ = .error msg) :
    executeNode ex w input (fuel + 1) node st =
      executeEdgeList ex w input fuel (errorEdges w node.id)
        (recordNodeError node.id msg (markInvoked node.id (insertStub node.id st))) := by
  simp [executeNode, hfresh, hprep, executeEdgeList, markInvoked, insertStub, hex]

theorem executeNode_success (ex : ExecutorFn) (w : Workflow) (input : List (String × JValue))
    (fuel : Nat) (node : Node) (st : ExecState) (output : List (String × JValue))
    (nodeInputs : List (String × JValue))
    (hfresh : dictLookup node.id st.results = none)
    (hprep : prepareInputs input node = .ok nodeInputs)
    (hex : ex node nodeInputs ⟨input, st.ctxResults, st.ctxErrors⟩ = .ok output) :
    executeNode ex w input (fuel + 1) node st =
      executeEdgeList ex w input fuel (defaultEdges w node.id)
        (recordNodeSuccess node output (markInvoked node.id (insertStub node.id st))) := by
  simp [executeNode, hfresh, hprep, executeEdgeList, markInvoked, insertStub, hex]

theorem executeEdgeList_nil (ex : ExecutorFn) (w : Workflow) (input : List (String × JValue))
    (fuel : Nat) (s : ExecState) : executeEdgeList ex w input fuel [] s = s := rfl

theorem executeEdgeList_cons (ex : ExecutorFn) (w : Workflow) (input : List (String × JValue))
    (fuel : Nat) (e : Edge) (es : List Edge) (s : ExecState) :
    executeEdgeList ex w input fuel (e :: es) s =
      executeEdgeList ex w input fuel es
        (match w.nodes.find? (fun n => n.id == e.target) with
         | some t => executeNode ex w input fuel t s
         | none => s) := rfl

/-! ### Fold helpers. -/

theorem foldl_preserve {α β : Type} (P : β → Prop) (f : β → α → β)
    (hf : ∀ s a, P s → P (f s a)) :
    ∀ (l : List α) (s : β), P s → P (l.foldl f s) := by
  intro l
  induction l with
  | nil => intro s h; simpa using h
  | cons a l ih => intro s h; exact ih _ (hf _ _ h)

theorem executeEdgeList_preserve (ex : ExecutorFn) (w : Workflow)
    (input : List (String × JValue)) (fuel : Nat) (P : ExecState → Prop)
    (hstep : ∀ t s, t ∈ w.nodes → P s → P (executeNode ex w input fuel t s)) :
    ∀ (es : List Edge) (s : ExecState), P s → P (executeEdgeList ex w input fuel es s) := by
  intro es s h
  refine foldl_preserve P _ ?_ es s h
  intro s' e hP
  cases hfind : w.nodes.find? (fun n => n.id == e.target) with
  | none => simpa [hfind] using hP
  | some t =>
    simp only [hfind]
    exact hstep t s' (List.mem_of_find?_eq_some hfind) hP

/-! ### Preservation lemmas: the traversal never removes or overwrites an
`execution.results` entry that was already present, never touches the
`context["errors"]` entry of an already-recorded node, and only appends to
the invocation trace. -/

theorem executeNode_preserves_result (ex : ExecutorFn) (w : Workflow)
    (input : List (String × JValue)) :
    ∀ (fuel : Nat) (n : Node) (st : ExecState) (id : String) (r : NodeExecutionResult),
      dictLookup id st.results = some r →
      dictLookup id (executeNode ex w input fuel n st).results = some r := by
  intro fuel
  induction fuel with
  | zero => intro n st id r h; exact h
  | succ fuel ih =>
    intro n st id r h
    cases hl : dictLookup n.id st.results with
    | some r0 => rw [executeNode_memo ex w input fuel n st r0 hl]; exact h
    | none =>
      have hne : id ≠ n.id := by
        intro hEq
        subst hEq
        rw [h] at hl
        exact Option.noConfusion hl
      have hstep : ∀ t s, t ∈ w.nodes →
          dictLookup id s.results = some r →
          dictLookup id (executeNode ex w input fuel t s).results = some r :=
        fun t s _ hp => ih t s id r hp
      cases hp : prepareInputs input n with
      | error msg =>
        rw [executeNode_prepError ex w input fuel n st msg hl hp]
        refine executeEdgeList_preserve ex w input fuel _ hstep _ _ ?_
        simp [recordNodeError, insertStub, dictLookup_insert_ne _ _ _ _ hne, h]
      | ok nodeInputs =>
        cases hex : ex n nodeInputs ⟨input, st.ctxResults, st.ctxErrors⟩ with
        | error msg =>
          rw [executeNode_execError ex w input fuel n st msg nodeInputs hl hp hex]
          refine executeEdgeList_preserve ex w input fuel _ hstep _ _ ?_
          simp [recordNodeError, markInvoked, insertStub,
            dictLookup_insert_ne _ _ _ _ hne, h]
        | ok output =>
          rw [executeNode_success ex w input fuel n st output nodeInputs hl hp hex]
          refine executeEdgeList_preserve ex w input fuel _ hstep _ _ ?_
          simp [recordNodeSuccess, markInvoked, insertStub,
            dictLookup_insert_ne _ _ _ _ hne, h]

/-- A node id that already has a result entry keeps having one. -/
theorem executeNode_keeps_key (ex : ExecutorFn) (w : Workflow)
    (input : List (String × JValue)) (fuel : Nat) (n : Node) (st : ExecState) (id : String)
    (h : dictLookup id st.results ≠ none) :
    dictLookup id (executeNode ex w input fuel n st).results ≠ none := by
  cases hv : dictLookup id st.results with
  | none => exact absurd hv h
  | some r =>
    rw [executeNode_preserves_result ex w input fuel n st id r hv]
    exact Option.noConfusion

/-- The `context["errors"]` entry of a node that already has a result entry
is never changed by further traversal. -/
theorem executeNode_preserves_ctxError (ex : ExecutorFn) (w : Workflow)
    (input : List (String × JValue)) :
    ∀ (fuel : Nat) (n : Node) (st : ExecState) (id : String),
      dictLookup id st.results ≠ none →
      dictLookup id (executeNode ex w input fuel n st).ctxErrors =
        dictLookup id st.ctxErrors := by
  intro fuel
  induction fuel with
  | zero => intro n st id _; rfl
  | succ fuel ih =>
    intro n st id h
    cases hl : dictLookup n.id st.results with
    | some r0 => rw [executeNode_memo ex w input fuel n st r0 hl]
    | none =>
      have hne : id ≠ n.id := by
        intro hEq
        subst hEq
        exact h hl
      have hstep : ∀ t s, t ∈ w.nodes →
          (dictLookup id s.results ≠ none ∧
            dictLookup id s.ctxErrors = dictLookup id st.ctxErrors) →
          dictLookup id (executeNode ex w input fuel t s).results ≠ none ∧
            dictLookup id (executeNode ex w input fuel t s).ctxErrors =
              dictLookup id st.ctxErrors := by
        intro t s _ hp
        exact ⟨executeNode_keeps_key ex w input fuel t s id hp.1,
          (ih t s id hp.1).trans hp.2⟩
      cases hp : prepareInputs input n with
      | error msg =>
        rw [executeNode_prepError ex w input fuel n st msg hl hp]
        refine (executeEdgeList_preserve ex w input fuel _ hstep _ _ ?_).2
        constructor
        · simp [recordNodeError, insertStub, dictLookup_insert_ne _ _ _ _ hne, h]
        · simp [recordNodeError, insertStub, dictLookup_insert_ne _ _ _ _ hne]
      | ok nodeInputs =>
        cases hex : ex n nodeInputs ⟨input, st.ctxResults, st.ctxErrors⟩ with
        | error msg =>
          rw [executeNode_execError ex w input fuel n st msg nodeInputs hl hp hex]
          refine (executeEdgeList_preserve ex w input fuel _ hstep _ _ ?_).2
          constructor
          · simp [recordNodeError, markInvoked, insertStub,
              dictLookup_insert_ne _ _ _ _ hne, h]
          · simp [recordNodeError, markInvoked, insertStub,
              dictLookup_insert_ne _ _ _ _ hne]
        | ok output =>
          rw [executeNode_success ex w input fuel n st output nodeInputs hl hp hex]
          refine (executeEdgeList_preserve ex w input fuel _ hstep _ _ ?_).2
          constructor
          · simp [recordNodeSuccess, markInvoked, insertStub,
              dictLookup_insert_ne _ _ _ _ hne, h]
          · simp [recordNodeSuccess, markInvoked, insertStub]

/-- The invocation trace only grows at the end. -/
theorem executeNode_invoked_extend (ex : ExecutorFn) (w : Workflow)
    (input : List (String × JValue)) :
    ∀ (fuel : Nat) (n : Node) (st : ExecState),
      ∃ tail, (executeNode ex w input fuel n st).invoked = st.invoked ++ tail := by
  intro fuel
  induction fuel with
  | zero => intro n st; exact ⟨[], by simp [executeNode]⟩
  | succ fuel ih =>
    intro n st
    cases hl : dictLookup n.id st.results with
    | some r0 =>
      rw [executeNode_memo ex w input fuel n st r0 hl]
      exact ⟨[], by simp⟩
    | none =>
      have hstep : ∀ t s, t ∈ w.nodes →
          (∃ tail, s.invoked = st.invoked ++ tail) →
          ∃ tail, (executeNode ex w input fuel t s).invoked = st.invoked ++ tail := by
        intro t s _ hp
        obtain ⟨t1, ht1⟩ := hp
        obtain ⟨t2, ht2⟩ := ih t s
        exact ⟨t1 ++ t2, by rw [ht2, ht1, List.append_assoc]⟩
      cases hp : prepareInputs input n with
      | error msg =>
        rw [executeNode_prepError ex w input fuel n st msg hl hp]
        refine executeEdgeList_preserve ex w input fuel _ hstep _ _ ?_
        exact ⟨[], by simp [recordNodeError, insertStub]⟩
      | ok nodeInputs =>
        cases hex : ex n nodeInputs ⟨input, st.ctxResults, st.ctxErrors⟩ with
        | error msg =>
          rw [executeNode_execError ex w input fuel n st msg nodeInputs hl hp hex]
          refine executeEdgeList_preserve ex w input fuel _ hstep _ _ ?_
          exact ⟨[n.id], by simp [recordNodeError, markInvoked, insertStub]⟩
        | ok output =>
          rw [executeNode_success ex w input fuel n st output nodeInputs hl hp hex]
          refine executeEdgeList_preserve ex w input fuel _ hstep _ _ ?_
          exact ⟨[n.id], by simp [recordNodeSuccess, markInvoked, insertStub]⟩

/-! ### The memoization invariant: every invoked node id has a result entry,
and no id is invoked twice. -/

theorem executeNode_inv (ex : ExecutorFn) (w : Workflow) (input : List (String × JValue)) :
    ∀ (fuel : Nat) (n : Node) (st : ExecState),
      st.invoked.Nodup → (∀ i ∈ st.invoked, dictLookup i st.results ≠ none) →
      (executeNode ex w input fuel n st).invoked.Nodup ∧
        ∀ i ∈ (executeNode ex w input fuel n st).invoked,
          dictLookup i (executeNode ex w input fuel n st).results ≠ none := by
  intro fuel
  induction fuel with
  | zero => intro n st h1 h2; exact ⟨h1, h2⟩
  | succ fuel ih =>
    intro n st h1 h2
    cases hl : dictLookup n.id st.results with
    | some r0 => rw [executeNode_memo ex w input fuel n st r0 hl]; exact ⟨h1, h2⟩
    | none =>
      have hnm : n.id ∉ st.invoked := fun hmem => h2 n.id hmem hl
      have hstep : ∀ t s, t ∈ w.nodes →
          (s.invoked.Nodup ∧ ∀ i ∈ s.invoked, dictLookup i s.results ≠ none) →
          ((executeNode ex w input fuel t s).invoked.Nodup ∧
            ∀ i ∈ (executeNode ex w input fuel t s).invoked,
              dictLookup i (executeNode ex w input fuel t s).results ≠ none) :=
        fun t s _ hp => ih t s hp.1 hp.2
      have hbaseKey : ∀ (res : NodeExecutionResult) (i : String),
          dictLookup i st.results ≠ none →
          dictLookup i (dictInsert n.id res (dictInsert n.id (runningStub n.id) st.results)) ≠
            none := by
        intro res i hi
        by_cases hin : i = n.id
        · subst hin; simp [dictLookup_insert_self]
        · simpa [dictLookup_insert_ne _ _ _ _ hin] using hi
      cases hp : prepareInputs input n with
      | error msg =>
        rw [executeNode_prepError ex w input fuel n st msg hl hp]
        refine executeEdgeList_preserve ex w input fuel _ hstep _ _ ?_
        refine ⟨h1, ?_⟩
        intro i hi
        exact hbaseKey _ i (h2 i hi)
      | ok nodeInputs =>
        have hIndBase : ∀ (res : NodeExecutionResult) (stx : ExecState),
            stx.results = dictInsert n.id res (dictInsert n.id (runningStub n.id) st.results) →
            stx.invoked = st.invoked ++ [n.id] →
            stx.invoked.Nodup ∧ ∀ i ∈ stx.invoked, dictLookup i stx.results ≠ none := by
          intro res stx hres hinv
          constructor
          · rw [hinv]
            simp [List.nodup_append, h1, hnm]
          · intro i hi
            rw [hinv] at hi
            rw [hres]
            rcases List.mem_append.mp hi with hi0 | hi0
            · exact hbaseKey res i (h2 i hi0)
            · have : i = n.id := by simpa using hi0
              subst this
              simp [dictLookup_insert_self]
        cases hex : ex n nodeInputs ⟨input, st.ctxResults, st.ctxErrors⟩ with
        | error msg =>
          rw [executeNode_execError ex w input fuel n st msg nodeInputs hl hp hex]
          refine executeEdgeList_preserve ex w input fuel _ hstep _ _ ?_
          exact hIndBase (errorResult n.id msg) _ rfl rfl
        | ok output =>
          rw [executeNode_success ex w input fuel n st output nodeInputs hl hp hex]
          refine executeEdgeList_preserve ex w input fuel _ hstep _ _ ?_
          exact hIndBase (successResult n.id output) _ rfl rfl

/-! ### Which node ids a traversal may invoke: only ids edge-reachable from
the entered node, and — on the error path — only ids reachable through an
error edge of the failed node. -/

theorem executeEdgeList_invoked_reach (ex : ExecutorFn) (w : Workflow)
    (input : List (String × JValue)) (fuel : Nat)
    (hstep : ∀ (t : Node) (s : ExecState) (m : String), t ∈ w.nodes →
      m ∈ (executeNode ex w input fuel t s).invoked → m ∈ s.invoked ∨ Reach w t.id m) :
    ∀ (es : List Edge) (s : ExecState) (m : String),
      m ∈ (executeEdgeList ex w input fuel es s).invoked →
      m ∈ s.invoked ∨ ∃ e ∈ es, Reach w e.target m := by
  intro es
  induction es with
  | nil =>
    intro s m h
    rw [executeEdgeList_nil] at h
    exact Or.inl h
  | cons e es ihe =>
    intro s m h
    rw [executeEdgeList_cons] at h
    cases hfind : w.nodes.find? (fun nd => nd.id == e.target) with
    | none =>
      rw [hfind] at h
      rcases ihe _ m h with h1 | ⟨e', he', hr⟩
      · exact Or.inl h1
      · exact Or.inr ⟨e', List.mem_cons_of_mem _ he', hr⟩
    | some t =>
      rw [hfind] at h
      rcases ihe _ m h with h1 | ⟨e', he', hr⟩
      · rcases hstep t s m (List.mem_of_find?_eq_some hfind) h1 with h2 | h2
        · exact Or.inl h2
        · have hid : t.id = e.target := by
            have := List.find?_some hfind
            simpa using this
          exact Or.inr ⟨e, List.mem_cons_self e es, hid ▸ h2⟩
      · exact Or.inr ⟨e', List.mem_cons_of_mem _ he', hr⟩

theorem mem_errorEdges (w : Workflow) (nid : String) (e : Edge) :
    e ∈ errorEdges w nid ↔
      e ∈ w.edges ∧ e.source = nid ∧ e.type = ConnectionType.error := by
  simp [errorEdges, List.mem_filter, and_assoc]

theorem mem_defaultEdges (w : Workflow) (nid : String) (e : Edge) :
    e ∈ defaultEdges w nid ↔
      e ∈ w.edges ∧ e.source = nid ∧ e.type ≠ ConnectionType.error := by
  simp [defaultEdges, List.mem_filter, and_assoc]

theorem executeNode_invoked_reach (ex : ExecutorFn) (w : Workflow)
    (input : List (String × JValue)) :
    ∀ (fuel : Nat) (n : Node) (st : ExecState) (m : String),
      m ∈ (executeNode ex w input fuel n st).invoked →
      m ∈ st.invoked ∨ Reach w n.id m := by
  intro fuel
  induction fuel with
  | zero => intro n st m h; exact Or.inl h
  | succ fuel ih =>
    intro n st m h
    cases hl : dictLookup n.id st.results with
    | some r0 =>
      rw [executeNode_memo ex w input fuel n st r0 hl] at h
      exact Or.inl h
    | none =>
      have hreach : ∀ (es : List Edge) (base : ExecState),
          (∀ e ∈ es, e ∈ w.edges ∧ e.source = n.id) →
          (base.invoked = st.invoked ∨ base.invoked = st.invoked ++ [n.id]) →
          m ∈ (executeEdgeList ex w input fuel es base).invoked →
          m ∈ st.invoked ∨ Reach w n.id m := by
        intro es base hes hbase hm
        rcases executeEdgeList_invoked_reach ex w input fuel (fun t s m0 ht hm0 => ih t s m0 hm0)
          es base m hm with h1 | ⟨e, he, hr⟩
        · rcases hbase with hb | hb
          · rw [hb] at h1; exact Or.inl h1
          · rw [hb] at h1
            rcases List.mem_append.mp h1 with h2 | h2
            · exact Or.inl h2
            · have : m = n.id := by simpa using h2
              subst this
              exact Or.inr (Reach.refl _)
        · obtain ⟨hein, hsrc⟩ := hes e he
          exact Or.inr (Reach.step e hein hsrc hr)
      cases hp : prepareInputs input n with
      | error msg =>
        rw [executeNode_prepError ex w input fuel n st msg hl hp] at h
        refine hreach (errorEdges w n.id) (recordNodeError n.id msg (insertStub n.id st))
          (fun e he => ?_) (Or.inl rfl) h
        obtain ⟨h1, h2, _⟩ := (mem_errorEdges w n.id e).mp he
        exact ⟨h1, h2⟩
      | ok nodeInputs =>
        cases hex : ex n nodeInputs ⟨input, st.ctxResults, st.ctxErrors⟩ with
        | error msg =>
          rw [executeNode_execError ex w input fuel n st msg nodeInputs hl hp hex] at h
          refine hreach (errorEdges w n.id)
            (recordNodeError n.id msg (markInvoked n.id (insertStub n.id st)))
            (fun e he => ?_) (Or.inr rfl) h
          obtain ⟨h1, h2, _⟩ := (mem_errorEdges w n.id e).mp he
          exact ⟨h1, h2⟩
        | ok output =>
          rw [executeNode_success ex w input fuel n st output nodeInputs hl hp hex] at h
          refine hreach (defaultEdges w n.id)
            (recordNodeSuccess n output (markInvoked n.id (insertStub n.id st)))
            (fun e he => ?_) (Or.inr rfl) h
          obtain ⟨h1, h2, _⟩ := (mem_defaultEdges w n.id e).mp he
          exact ⟨h1, h2⟩

/-! ### The decreasing measure and fuel stabilization: the traversal needs
no more recursion depth than the number of workflow nodes, because each
node is entered at most once. -/

theorem mem_resultKeysF (st : ExecState) (id : String) :
    id ∈ resultKeysF st ↔ dictLookup id st.results ≠ none := by
  rw [resultKeysF, List.mem_toFinset]
  constructor
  · intro hm hnone
    exact (dictLookup_eq_none_iff id st.results).mp hnone hm
  · intro h
    by_contra hm
    exact h ((dictLookup_eq_none_iff id st.results).mpr hm)

theorem executeNode_keys_subset (ex : ExecutorFn) (w : Workflow)
    (input : List (String × JValue)) (fuel : Nat) (n : Node) (st : ExecState) :
    resultKeysF st ⊆ resultKeysF (executeNode ex w input fuel n st) := by
  intro id hid
  rw [mem_resultKeysF] at hid ⊢
  exact executeNode_keeps_key ex w input fuel n st id hid

theorem remainingNodes_mono (ex : ExecutorFn) (w : Workflow)
    (input : List (String × JValue)) (fuel : Nat) (n : Node) (st : ExecState) :
    remainingNodes w (executeNode ex w input fuel n st) ≤ remainingNodes w st :=
  Finset.card_le_card
    (Finset.sdiff_subset_sdiff (Finset.Subset.refl _)
      (executeNode_keys_subset ex w input fuel n st))

theorem remainingNodes_after_insert (w : Workflow) (st st' : ExecState) (n : Node)
    (hn : n ∈ w.nodes) (hl : dictLookup n.id st.results = none)
    (hkeys : resultKeysF st' = insert n.id (resultKeysF st)) :
    remainingNodes w st' + 1 = remainingNodes w st := by
  have hnid : n.id ∈ nodeIdsF w := by
    rw [nodeIdsF, List.mem_toFinset]
    exact List.mem_map.mpr ⟨n, hn, rfl⟩
  have hnotin : n.id ∉ resultKeysF st := by
    rw [mem_resultKeysF]
    simp [hl]
  have hmem : n.id ∈ nodeIdsF w \ resultKeysF st := Finset.mem_sdiff.mpr ⟨hnid, hnotin⟩
  have hdiff : nodeIdsF w \ resultKeysF st' = (nodeIdsF w \ resultKeysF st).erase n.id := by
    rw [hkeys]
    ext a
    simp only [Finset.mem_sdiff, Finset.mem_insert, Finset.mem_erase]
    tauto
  rw [remainingNodes, hdiff, Finset.card_erase_of_mem hmem]
  have : 1 ≤ (nodeIdsF w \ resultKeysF st).card := Finset.card_pos.mpr ⟨n.id, hmem⟩
  rw [remainingNodes]
  omega

theorem resultKeysF_recordError (n : Node) (msg : String) (st : ExecState) :
    resultKeysF (recordNodeError n.id msg (insertStub n.id st)) =
      insert n.id (resultKeysF st) := by
  simp [resultKeysF, recordNodeError, insertStub, map_fst_dictInsert]

theorem resultKeysF_recordError_invoked (n : Node) (msg : String) (st : ExecState) :
    resultKeysF (recordNodeError n.id msg (markInvoked n.id (insertStub n.id st))) =
      insert n.id (resultKeysF st) := by
  simp [resultKeysF, recordNodeError, markInvoked, insertStub, map_fst_dictInsert]

theorem resultKeysF_recordSuccess (n : Node) (output : List (String × JValue))
    (st : ExecState) :
    resultKeysF (recordNodeSuccess n output (markInvoked n.id (insertStub n.id st))) =
      insert n.id (resultKeysF st) := by
  simp [resultKeysF, recordNodeSuccess, markInvoked, insertStub, map_fst_dictInsert]

/-- Fuel stabilization: entering any workflow node with two fuels both
exceeding the number of not-yet-recorded workflow nodes gives identical
states.  This is the source's termination argument: each node can only be
entered once, so recursion depth is bounded by the node count. -/
theorem executeNode_fuel_stable (ex : ExecutorFn) (w : Workflow)
    (input : List (String × JValue)) :
    ∀ (k : Nat) (n : Node) (st : ExecState) (f₁ f₂ : Nat),
      n ∈ w.nodes → remainingNodes w st ≤ k → k < f₁ → k < f₂ →
      executeNode ex w input f₁ n st = executeNode ex w input f₂ n st := by
  intro k
  induction k using Nat.strong_induction_on with
  | _ k IH =>
    intro n st f₁ f₂ hn hR h1 h2
    obtain ⟨g₁, rfl⟩ : ∃ g, f₁ = g + 1 := ⟨f₁ - 1, by omega⟩
    obtain ⟨g₂, rfl⟩ : ∃ g, f₂ = g + 1 := ⟨f₂ - 1, by omega⟩
    cases hl : dictLookup n.id st.results with
    | some r0 =>
      rw [executeNode_memo ex w input g₁ n st r0 hl,
        executeNode_memo ex w input g₂ n st r0 hl]
    | none =>
      have hkpos : 1 ≤ k := by
        have hnid : n.id ∈ nodeIdsF w := by
          rw [nodeIdsF, List.mem_toFinset]
          exact List.mem_map.mpr ⟨n, hn, rfl⟩
        have hnotin : n.id ∉ resultKeysF st := by
          rw [mem_resultKeysF]
          simp [hl]
        have : 1 ≤ remainingNodes w st :=
          Finset.card_pos.mpr ⟨n.id, Finset.mem_sdiff.mpr ⟨hnid, hnotin⟩⟩
        omega
      have inner : ∀ (es : List Edge) (s : ExecState), remainingNodes w s ≤ k - 1 →
          executeEdgeList ex w input g₁ es s = executeEdgeList ex w input g₂ es s := by
        intro es
        induction es with
        | nil => intro s _; rw [executeEdgeList_nil, executeEdgeList_nil]
        | cons e es ihe =>
          intro s hs
          rw [executeEdgeList_cons, executeEdgeList_cons]
          cases hfind : w.nodes.find? (fun nd => nd.id == e.target) with
          | none => exact ihe s hs
          | some t =>
            have ht : t ∈ w.nodes := List.mem_of_find?_eq_some hfind
            have heq : executeNode ex w input g₁ t s = executeNode ex w input g₂ t s :=
              IH (k - 1) (by omega) t s g₁ g₂ ht hs (by omega) (by omega)
            show executeEdgeList ex w input g₁ es (executeNode ex w input g₁ t s) =
              executeEdgeList ex w input g₂ es (executeNode ex w input g₂ t s)
            rw [heq]
            exact ihe _ (le_trans (remainingNodes_mono ex w input g₂ t s) hs)
      cases hp : prepareInputs input n with
      | error msg =>
        rw [executeNode_prepError ex w input g₁ n st msg hl hp,
          executeNode_prepError ex w input g₂ n st msg hl hp]
        refine inner _ _ ?_
        have := remainingNodes_after_insert w st _ n hn hl (resultKeysF_recordError n msg st)
        omega
      | ok nodeInputs =>
        cases hex : ex n nodeInputs ⟨input, st.ctxResults, st.ctxErrors⟩ with
        | error msg =>
          rw [executeNode_execError ex w input g₁ n st msg nodeInputs hl hp hex,
            executeNode_execError ex w input g₂ n st msg nodeInputs hl hp hex]
          refine inner _ _ ?_
          have := remainingNodes_after_insert w st _ n hn hl
            (resultKeysF_recordError_invoked n msg st)
          omega
        | ok output =>
          rw [executeNode_success ex w input g₁ n st output nodeInputs hl hp hex,
            executeNode_success ex w input g₂ n st output nodeInputs hl hp hex]
          refine inner _ _ ?_
          have := remainingNodes_after_insert w st _ n hn hl
            (resultKeysF_recordSuccess n output st)
          omega

/-! ### Invariant of the concurrency system: permit accounting. -/

theorem sysStep_inv (maxConc : Nat) (s s' : SysState) (hstep : SysStep s s')
    (hc : countHolding s.runs + s.avail = maxConc)
    (hr : ∀ r ∈ s.runs, r.status = ExecutionStatus.running → r.phase = RunPhase.holding) :
    countHolding s'.runs + s'.avail = maxConc ∧
      ∀ r ∈ s'.runs, r.status = ExecutionStatus.running → r.phase = RunPhase.holding := by
  cases hstep with
  | spawn a runs =>
    refine ⟨by simpa [countHolding, List.countP_append] using hc, ?_⟩
    intro r hm hs
    rcases List.mem_append.mp hm with h | h
    · exact hr r h hs
    · rw [List.mem_singleton.mp h] at hs
      exact absurd hs (by simp)
  | acquire a pre post =>
    constructor
    · simp only [countHolding, List.countP_append, List.countP_cons] at hc ⊢
      simp only [decide_eq_true_eq] at hc ⊢
      simp at hc ⊢
      omega
    · intro r hm _
      rcases List.mem_append.mp hm with h | h
      · exact hr r (List.mem_append.mpr (Or.inl h)) (by
          rcases List.mem_append.mp hm with h' | h'
          · exact ‹r.status = ExecutionStatus.running›
          · exact ‹r.status = ExecutionStatus.running›)
      · rcases List.mem_cons.mp h with h' | h'
        · rw [h']
        · exact hr r (List.mem_append.mpr (Or.inr (List.mem_cons_of_mem _ h')))
            ‹r.status = ExecutionStatus.running›
  | finishRun a pre post terminalStatus hterm =>
    constructor
    · simp only [countHolding, List.countP_append, List.countP_cons] at hc ⊢
      simp at hc ⊢
      omega
    · intro r hm hs
      rcases List.mem_append.mp hm with h | h
      · exact hr r (List.mem_append.mpr (Or.inl h)) hs
      · rcases List.mem_cons.mp h with h' | h'
        · rw [h'] at hs
          simp only at hs
          rcases hterm with ht | ht | ht <;> rw [ht] at hs <;> exact absurd hs (by simp)
        · exact hr r (List.mem_append.mpr (Or.inr (List.mem_cons_of_mem _ h'))) hs
  | abortWaiting a pre post =>
    constructor
    · simp only [countHolding, List.countP_append, List.countP_cons] at hc ⊢
      simp at hc ⊢
      omega
    · intro r hm hs
      rcases List.mem_append.mp hm with h | h
      · exact hr r (List.mem_append.mpr (Or.inl h)) hs
      · rcases List.mem_cons.mp h with h' | h'
        · rw [h'] at hs
          exact absurd hs (by simp)
        · exact hr r (List.mem_append.mpr (Or.inr (List.mem_cons_of_mem _ h'))) hs

theorem sysReach_inv (maxConc : Nat) (s : SysState) (h : SysReach maxConc s) :
    countHolding s.runs + s.avail = maxConc ∧
      ∀ r ∈ s.runs, r.status = ExecutionStatus.running → r.phase = RunPhase.holding := by
  induction h with
  | init => exact ⟨by simp [countHolding], by intro r hm; simp at hm⟩
  | step _ hstep ih => exact sysStep_inv maxConc _ _ hstep ih.1 ih.2

/-! ### POSIX basename lemmas. -/

theorem basenameAux_no_slash :
    ∀ (cs acc : List Char), '/' ∉ acc → '/' ∉ basenameAux cs acc := by
  intro cs
  induction cs with
  | nil => intro acc h; simpa [basenameAux] using h
  | cons c rest ih =>
    intro acc h
    by_cases hc : c = '/'
    · simpa [basenameAux, hc] using ih [] (by simp)
    · simp only [basenameAux, hc, if_false]
      refine ih _ ?_
      simp only [List.mem_append, List.mem_singleton]
      rintro (h1 | h1)
      · exact h h1
      · exact hc h1.symm

theorem basename_no_slash (p : String) : '/' ∉ (basename p).data := by
  show '/' ∉ basenameAux p.data []
  exact basenameAux_no_slash p.data [] (by simp)

theorem basenameAux_append_slash :
    ∀ (xs ys acc : List Char), basenameAux (xs ++ '/' :: ys) acc = basenameAux ys [] := by
  intro xs
  induction xs with
  | nil => intro ys acc; simp [basenameAux]
  | cons c rest ih => intro ys acc; simp only [List.cons_append, basenameAux]; exact ih ys _

theorem basenameAux_of_no_slash :
    ∀ (ys acc : List Char), '/' ∉ ys → basenameAux ys acc = acc ++ ys := by
  intro ys
  induction ys with
  | nil => intro acc _; simp [basenameAux]
  | cons c rest ih =>
    intro acc h
    have hc : ¬c = '/' := fun e => h (by simp [e])
    simp only [basenameAux, hc, if_false]
    rw [ih _ (fun hm => h (List.mem_cons_of_mem _ hm))]
    simp

theorem basename_append_no_slash (a b : String) (hb : '/' ∉ b.data) :
    basename (a ++ "/" ++ b) = b := by
  show String.mk (basenameAux (a ++ "/" ++ b).data []) = b
  have hdata : (a ++ "/" ++ b).data = a.data ++ '/' :: b.data := by
    simp [String.data_append]
  rw [hdata, basenameAux_append_slash, basenameAux_of_no_slash b.data [] hb]
  rfl

theorem head_ne_slash_of_no_slash (b : String) (hb : '/' ∉ b.data) :
    b.data.head? ≠ some '/' := by
  cases hd : b.data with
  | nil => simp
  | cons c l =>
    simp only [List.head?]
    intro hEq
    have : c = '/' := by simpa using hEq
    rw [hd] at hb
    exact hb (by simp [this])

theorem pathJoin_of_plain (a b : String) (ha1 : a.data.getLast? ≠ some '/') (ha2 : a ≠ "")
    (hb : b.data.head? ≠ some '/') : pathJoin a b = a ++ "/" ++ b := by
  simp [pathJoin, hb, ha1, ha2]

theorem dictLookup_filter_out {α : Type} (id : String) (l : List (String × α)) :
    dictLookup id (l.filter (fun p => !(p.1 == id))) = none := by
  induction l with
  | nil => rfl
  | cons p rest ih =>
    obtain ⟨k, v⟩ := p
    by_cases h : k = id
    · simp [h, ih]
    · have hb : (k == id) = false := by simp [h]
      simp [List.filter_cons, hb, dictLookup, h, ih]

/-! ## Claims -/

/-- C1 (counterexample): the claim says that once the background worker has
finished, the engine retains the Execution record and `GetExecution(id)`
returns it.  At the concrete state below the worker has finished
(`task.done() = true`, coroutine returned its record) and before the
done-callback `GetExecution` indeed returns the record; but the installed
done-callback pops the whole entry from `active_executions`, and since
`get_execution` consults only that table, `GetExecution` then returns
not-found: the record is not retained. -/
theorem c1_counterexample :
    getExecution
        [("exec_1", ⟨true, some ⟨"exec_1", "wf", ExecutionStatus.completed, [], [], none⟩⟩)]
        "exec_1" = some ⟨"exec_1", "wf", ExecutionStatus.completed, [], [], none⟩ ∧
    removeActive
        [("exec_1", ⟨true, some ⟨"exec_1", "wf", ExecutionStatus.completed, [], [], none⟩⟩)]
        "exec_1" = [] ∧
    getExecution
        (removeActive
          [("exec_1", ⟨true, some ⟨"exec_1", "wf", ExecutionStatus.completed, [], [], none⟩⟩)]
          "exec_1")
        "exec_1" = none :=
  ⟨rfl, rfl, rfl⟩

/-- C1 (amended): the engine does not retain the record after completion.
`GetExecution(id)` returns the record exactly when the handle is still in
the active-set, the task is done, and the coroutine returned that record;
after the completion callback removes the handle, `GetExecution` returns
not-found; while the worker is unfinished it also returns not-found. -/
theorem c1_amended :
    (∀ (active : List (String × TaskHandle)) (id : String),
      getExecution (removeActive active id) id = none) ∧
    (∀ (active : List (String × TaskHandle)) (id : String) (t : TaskHandle),
      dictLookup id active = some t → t.done = false → getExecution active id = none) ∧
    (∀ (active : List (String × TaskHandle)) (id : String) (r : ExecutionRecord),
      getExecution active id = some r ↔
        ∃ t : TaskHandle, dictLookup id active = some t ∧ t.done = true ∧
          t.result = some r) := by
  refine ⟨?_, ?_, ?_⟩
  · intro active id
    simp [getExecution, removeActive, dictLookup_filter_out]
  · intro active id t ht hdone
    simp [getExecution, ht, hdone]
  · intro active id r
    constructor
    · intro h
      cases hl : dictLookup id active with
      | none => simp [getExecution, hl] at h
      | some t =>
        cases hd : t.done with
        | false => simp [getExecution, hl, hd] at h
        | true =>
          cases hr : t.result with
          | none => simp [getExecution, hl, hd, hr] at h
          | some r' =>
            have hrr : r' = r := by simpa [getExecution, hl, hd, hr] using h
            exact ⟨t, rfl, hd, by rw [hr, hrr]⟩
    · rintro ⟨t, hl, hd, hres⟩
      simp [getExecution, hl, hd, hres]

/-- C1 amended witness: the three behaviours at a concrete table. -/
theorem c1_amended_witness :
    getExecution
        (removeActive
          [("exec_1", ⟨true, some ⟨"exec_1", "wf", ExecutionStatus.completed, [], [], none⟩⟩)]
          "exec_1") "exec_1" = none ∧
    getExecution [("exec_2", (⟨false, none⟩ : TaskHandle))] "exec_2" = none ∧
    getExecution
        [("exec_1", ⟨true, some ⟨"exec_1", "wf", ExecutionStatus.completed, [], [], none⟩⟩)]
        "exec_1" = some ⟨"exec_1", "wf", ExecutionStatus.completed, [], [], none⟩ :=
  ⟨c1_amended.1
      [("exec_1", ⟨true, some ⟨"exec_1", "wf", ExecutionStatus.completed, [], [], none⟩⟩)]
      "exec_1",
   c1_amended.2.1 [("exec_2", ⟨false, none⟩)] "exec_2" ⟨false, none⟩ rfl rfl,
   (c1_amended.2.2
      [("exec_1", ⟨true, some ⟨"exec_1", "wf", ExecutionStatus.completed, [], [], none⟩⟩)]
      "exec_1" ⟨"exec_1", "wf", ExecutionStatus.completed, [], [], none⟩).mpr
     ⟨⟨true, some ⟨"exec_1", "wf", ExecutionStatus.completed, [], [], none⟩⟩, rfl, rfl, rfl⟩⟩

/-- C5: the claim says a run cancelled before its worker starts traversal
reaches terminal status `cancelled` with empty results.  In the code the
semaphore acquire (line 105) sits outside the `try` of line 106, so a
`CancelledError` delivered before the traversal begins propagates without
reaching the `except asyncio.CancelledError` handler: the record keeps
status `pending` (never `cancelled`), no error, and indeed no node
results.  This theorem evaluates the embedded worker at that failing
input. -/
theorem c5_cancel_before_traversal_bug :
    ∀ (ex : ExecutorFn) (w : Workflow) (wid : String) (nowUs : Nat)
      (input : List (String × JValue)),
      (executeWorkflowTask ex w (newExecution wid nowUs input)
          CancelSignal.beforeTraversal).status = ExecutionStatus.pending ∧
      (executeWorkflowTask ex w (newExecution wid nowUs input)
          CancelSignal.beforeTraversal).results = [] ∧
      (executeWorkflowTask ex w (newExecution wid nowUs input)
          CancelSignal.beforeTraversal).status ≠ ExecutionStatus.cancelled :=
  fun _ _ _ _ _ => ⟨rfl, rfl, fun h => ExecutionStatus.noConfusion h⟩

/-- C6: the `json_transform` template evaluator maps input
`{"a": {"b": 5}}` under template `{"x": {"$select": "a.b"}}` to `{"x": 5}`,
and template `{"$value": null}` is the identity on every input (for any
sufficient recursion fuel). -/
theorem c6_json_transform :
    (∀ fuel : Nat,
      applyJsonTemplate (fuel + 4) (.jobj [("a", .jobj [("b", .jnum 5)])])
          (.jobj [("x", .jobj [("$select", .jstr "a.b")])]) =
        .ok (.jobj [("x", .jnum 5)])) ∧
    (∀ (i : JValue) (fuel : Nat),
      applyJsonTemplate (fuel + 2) i (.jobj [("$value", .jnull)]) = .ok i) :=
  ⟨fun _ => rfl, fun _ _ => rfl⟩

/-- C8 (counterexample): the claim says registry shutdown is best-effort,
shutting down the remaining executors and collecting all errors when one
raises.  With two executors whose first `shutdown` raises, the loop stops:
the second executor is never shut down and the first exception propagates
instead of being collected. -/
theorem c8_counterexample :
    factoryShutdown [("trigger", Except.error "boom"), ("action", Except.ok ())] =
      (["trigger"], some "boom") ∧
    "action" ∉ (factoryShutdown
      [("trigger", Except.error "boom"), ("action", Except.ok ())]).1 :=
  ⟨rfl, by decide⟩

/-- C8 (amended): `shutdown` iterates the constructed executors in order
and stops at the first whose `shutdown` raises: that exception propagates,
the executors after it are not shut down, and only that first error is
reported. -/
theorem c8_amended :
    ∀ (pre : List (String × Except String Unit)) (name e : String)
      (rest : List (String × Except String Unit)),
      (∀ p ∈ pre, p.2 = Except.ok ()) →
      factoryShutdown (pre ++ (name, Except.error e) :: rest) =
        (pre.map Prod.fst ++ [name], some e) := by
  intro pre
  induction pre with
  | nil => intro name e rest _; rfl
  | cons p pre ih =>
    intro name e rest h
    obtain ⟨pn, pv⟩ := p
    have hp : pv = Except.ok () := h (pn, pv) (List.mem_cons_self _ _)
    subst hp
    simp [factoryShutdown, ih name e rest (fun q hq => h q (List.mem_cons_of_mem _ hq))]

/-- C8 amended witness: a healthy executor, then a failing one, then one
more; only the first two shutdowns run and the error propagates. -/
theorem c8_amended_witness :
    (∀ p ∈ [("trigger", Except.ok ())], p.2 = (Except.ok () : Except String Unit)) ∧
    factoryShutdown
        ([("trigger", Except.ok ())] ++ ("action", Except.error "boom") ::
          [("condition", Except.ok ())]) =
      (["trigger", "action"], some "boom") := by
  have hpre : ∀ p ∈ [("trigger", (Except.ok () : Except String Unit))],
      p.2 = (Except.ok () : Except String Unit) := by
    intro p hp
    rw [List.mem_singleton.mp hp]
  exact ⟨hpre,
    c8_amended [("trigger", Except.ok ())] "action" "boom" [("condition", Except.ok ())] hpre⟩

/-- C10: the execution id is exactly `"exec_"` followed by the creation
wall-clock truncated to whole milliseconds; two `Execute` calls in the same
millisecond therefore get equal ids, and the second dict assignment
overwrites the first task handle in `active_executions`, leaving the first
run unreachable through `GetExecution` and `CancelExecution` (both consult
only that table, and `cancel` lands on the later handle). -/
theorem c10_execution_id :
    (∀ (wid : String) (nowUs : Nat) (input : List (String × JValue)),
      (newExecution wid nowUs input).id = "exec_" ++ toString (nowUs / 1000)) ∧
    (∀ (wid1 wid2 : String) (t1 t2 : Nat) (in1 in2 : List (String × JValue))
        (h1 h2 : TaskHandle),
      t1 / 1000 = t2 / 1000 →
      ((executeWorkflowCall [] wid1 t1 in1 h1).1).id =
          ((executeWorkflowCall (executeWorkflowCall [] wid1 t1 in1 h1).2
              wid2 t2 in2 h2).1).id ∧
      (executeWorkflowCall (executeWorkflowCall [] wid1 t1 in1 h1).2 wid2 t2 in2 h2).2 =
        [(((executeWorkflowCall [] wid1 t1 in1 h1).1).id, h2)] ∧
      (h2.done = false →
        cancelExecution
            (executeWorkflowCall (executeWorkflowCall [] wid1 t1 in1 h1).2 wid2 t2 in2 h2).2
            ((executeWorkflowCall [] wid1 t1 in1 h1).1).id = (true, some h2))) := by
  constructor
  · intro wid nowUs input
    rfl
  · intro wid1 wid2 t1 t2 in1 in2 h1 h2 hms
    have hid : makeExecutionId t1 = makeExecutionId t2 := by
      rw [makeExecutionId, makeExecutionId, hms]
    refine ⟨hid, ?_, ?_⟩
    · show dictInsert (makeExecutionId t2) h2 (dictInsert (makeExecutionId t1) h1 []) =
        [(makeExecutionId t1, h2)]
      rw [hid]
      simp [dictInsert]
    · intro hdone
      show cancelExecution
          (dictInsert (makeExecutionId t2) h2 (dictInsert (makeExecutionId t1) h1 []))
          (makeExecutionId t1) = (true, some h2)
      rw [hid]
      simp [dictInsert, cancelExecution, dictLookup, hdone]

/-- C10 witness: two creations 543 microseconds apart inside millisecond
5123 collide; the table ends up holding only the second handle and
cancellation lands on it. -/
theorem c10_execution_id_witness :
    (newExecution "wf" 5123456 []).id = "exec_" ++ toString (5123456 / 1000) ∧
    5123456 / 1000 = 5123999 / 1000 ∧
    ((executeWorkflowCall [] "wfA" 5123456 [] ⟨false, none⟩).1).id =
        ((executeWorkflowCall (executeWorkflowCall [] "wfA" 5123456 [] ⟨false, none⟩).2
            "wfB" 5123999 [] ⟨false, none⟩).1).id ∧
    (executeWorkflowCall (executeWorkflowCall [] "wfA" 5123456 [] ⟨false, none⟩).2
        "wfB" 5123999 [] ⟨false, none⟩).2 =
      [(((executeWorkflowCall [] "wfA" 5123456 [] ⟨false, none⟩).1).id,
        (⟨false, none⟩ : TaskHandle))] ∧
    cancelExecution
        (executeWorkflowCall (executeWorkflowCall [] "wfA" 5123456 [] ⟨false, none⟩).2
          "wfB" 5123999 [] ⟨false, none⟩).2
        (((executeWorkflowCall [] "wfA" 5123456 [] ⟨false, none⟩).1).id) =
      (true, some ⟨false, none⟩) := by
  have h := c10_execution_id.2 "wfA" "wfB" 5123456 5123999 [] [] ⟨false, none⟩ ⟨false, none⟩
    (by decide)
  exact ⟨c10_execution_id.1 "wf" 5123456 [], by decide, h.1, h.2.1, h.2.2 rfl⟩

/-- C2: within one run every node's executor is invoked at most once: a
node id already present in `execution.results` returns its memoized result
with no state change at all (in particular the executor is not re-invoked),
and over a whole run the invocation trace counts every node id at most
once — so a diamond-shaped graph executes the shared node exactly once. -/
theorem c2_memoization :
    (∀ (ex : ExecutorFn) (w : Workflow) (input : List (String × JValue)) (fuel : Nat)
        (n : Node) (st : ExecState) (r : NodeExecutionResult),
      dictLookup n.id st.results = some r → executeNode ex w input fuel n st = st) ∧
    (∀ (ex : ExecutorFn) (w : Workflow) (input : List (String × JValue)) (nid : String),
      ((runWorkflowTask ex w input).finalState.invoked).count nid ≤ 1) := by
  constructor
  · intro ex w input fuel n st r h
    cases fuel with
    | zero => rfl
    | succ fuel => exact executeNode_memo ex w input fuel n st r h
  · intro ex w input nid
    have hInv : (runWorkflowTask ex w input).finalState.invoked.Nodup := by
      rw [runWorkflowTask]
      by_cases hT :
          (w.nodes.filter (fun n => decide (n.type = NodeType.trigger))).isEmpty
      · simp [hT, initialExecState]
      · simp only [hT, if_false]
        have hfold := foldl_preserve
          (fun st : ExecState =>
            st.invoked.Nodup ∧ ∀ i ∈ st.invoked, dictLookup i st.results ≠ none)
          (fun st t => executeNode ex w input (w.nodes.length + 1) t st)
          (fun s t hp => executeNode_inv ex w input (w.nodes.length + 1) t s hp.1 hp.2)
          (w.nodes.filter (fun n => decide (n.type = NodeType.trigger))) initialExecState
          ⟨by simp [initialExecState], by intro i hi; simp [initialExecState] at hi⟩
        exact hfold.1
    exact List.nodup_iff_count_le_one.mp hInv nid

/-- C2 witness: a node whose id is already memoized in `execution.results`
is returned without re-execution: the state is unchanged. -/
theorem c2_memoization_witness :
    dictLookup "A"
        (⟨[("A", ⟨"A", "success", some [], none⟩)], [], [], ["A"]⟩ : ExecState).results =
      some ⟨"A", "success", some [], none⟩ ∧
    executeNode exAlwaysOk wfCyclic [] 3 (mkPlainNode "A" NodeType.trigger)
        ⟨[("A", ⟨"A", "success", some [], none⟩)], [], [], ["A"]⟩ =
      ⟨[("A", ⟨"A", "success", some [], none⟩)], [], [], ["A"]⟩ :=
  ⟨rfl,
   c2_memoization.1 exAlwaysOk wfCyclic [] 3 (mkPlainNode "A" NodeType.trigger)
     ⟨[("A", ⟨"A", "success", some [], none⟩)], [], [], ["A"]⟩
     ⟨"A", "success", some [], none⟩ rfl⟩

/-- C3: when a node's executor raises, the node's recorded result has
status `error` carrying the message, the same message is recorded in
`context["errors"][nodeId]`, every node newly invoked afterwards is reached
through an `Error`-kind edge leaving the failed node (so `Default`-edge
successors are not visited from it), and such a node error does not fail
the run: any run over a workflow with a trigger node finishes `completed`
with no terminal error. -/
theorem c3_error_routing :
    (∀ (ex : ExecutorFn) (w : Workflow) (input : List (String × JValue)) (fuel : Nat)
        (n : Node) (st : ExecState) (msg : String) (nodeInputs : List (String × JValue)),
      dictLookup n.id st.results = none →
      prepareInputs input n = Except.ok nodeInputs →
      ex n nodeInputs ⟨input, st.ctxResults, st.ctxErrors⟩ = Except.error msg →
      (∃ r : NodeExecutionResult,
        dictLookup n.id (executeNode ex w input (fuel + 1) n st).results = some r ∧
          r.status = "error" ∧ r.error = some msg) ∧
      dictLookup n.id (executeNode ex w input (fuel + 1) n st).ctxErrors = some msg ∧
      (∀ m, m ∈ (executeNode ex w input (fuel + 1) n st).invoked →
        m ∈ st.invoked ∨ m = n.id ∨
          ∃ e : Edge, e ∈ w.edges ∧ e.source = n.id ∧ e.type = ConnectionType.error ∧
            Reach w e.target m)) ∧
    (∀ (ex : ExecutorFn) (w : Workflow) (input : List (String × JValue)),
      (w.nodes.filter (fun n => decide (n.type = NodeType.trigger))).isEmpty = false →
      (runWorkflowTask ex w input).status = ExecutionStatus.completed ∧
      (runWorkflowTask ex w input).error = none) := by
  constructor
  · intro ex w input fuel n st msg nodeInputs hfresh hprep hex
    rw [executeNode_execError ex w input fuel n st msg nodeInputs hfresh hprep hex]
    set base := recordNodeError n.id msg (markInvoked n.id (insertStub n.id st)) with hbase
    refine ⟨?_, ?_, ?_⟩
    · have hb : dictLookup n.id base.results = some (errorResult n.id msg) := by
        rw [hbase]
        simp [recordNodeError, markInvoked, insertStub, dictLookup_insert_self]
      have := executeEdgeList_preserve ex w input fuel
        (fun s => dictLookup n.id s.results = some (errorResult n.id msg))
        (fun t s _ hp => executeNode_preserves_result ex w input fuel t s n.id _ hp)
        (errorEdges w n.id) base hb
      exact ⟨errorResult n.id msg, this, rfl, rfl⟩
    · have hb : dictLookup n.id base.results ≠ none ∧
          dictLookup n.id base.ctxErrors = some msg := by
        rw [hbase]
        constructor
        · simp [recordNodeError, markInvoked, insertStub, dictLookup_insert_self]
        · simp [recordNodeError, markInvoked, insertStub, dictLookup_insert_self]
      have := executeEdgeList_preserve ex w input fuel
        (fun s => dictLookup n.id s.results ≠ none ∧ dictLookup n.id s.ctxErrors = some msg)
        (fun t s _ hp => ⟨executeNode_keeps_key ex w input fuel t s n.id hp.1,
          (executeNode_preserves_ctxError ex w input fuel t s n.id hp.1).trans hp.2⟩)
        (errorEdges w n.id) base hb
      exact this.2
    · intro m hm
      rcases executeEdgeList_invoked_reach ex w input fuel
          (fun t s m0 _ hm0 => executeNode_invoked_reach ex w input fuel t s m0 hm0)
          (errorEdges w n.id) base m hm with h1 | ⟨e, he, hr⟩
      · have : base.invoked = st.invoked ++ [n.id] := rfl
        rw [this] at h1
        rcases List.mem_append.mp h1 with h2 | h2
        · exact Or.inl h2
        · exact Or.inr (Or.inl (by simpa using h2))
      · obtain ⟨h1, h2, h3⟩ := (mem_errorEdges w n.id e).mp he
        exact Or.inr (Or.inr ⟨e, h1, h2, h3, hr⟩)
  · intro ex w input hT
    rw [runWorkflowTask]
    simp only [hT, if_false]
    exact ⟨rfl, rfl⟩

/-- C3 witness: trigger `A` fails, its `Default`-edge successor `B` is not
invoked, yet the run completes. -/
theorem c3_error_routing_witness :
    dictLookup "A" initialExecState.results = none ∧
    prepareInputs [] (mkPlainNode "A" NodeType.trigger) = Except.ok [] ∧
    exFailA (mkPlainNode "A" NodeType.trigger) [] ⟨[], [], []⟩ = Except.error "boom" ∧
    (∃ r : NodeExecutionResult,
      dictLookup "A"
          (executeNode exFailA wfBranch [] 3 (mkPlainNode "A" NodeType.trigger)
            initialExecState).results = some r ∧
        r.status = "error" ∧ r.error = some "boom") ∧
    dictLookup "A"
        (executeNode exFailA wfBranch [] 3 (mkPlainNode "A" NodeType.trigger)
          initialExecState).ctxErrors = some "boom" ∧
    (wfBranch.nodes.filter (fun n => decide (n.type = NodeType.trigger))).isEmpty = false ∧
    (runWorkflowTask exFailA wfBranch []).status = ExecutionStatus.completed := by
  have h1 := (c3_error_routing.1 exFailA wfBranch [] 2 (mkPlainNode "A" NodeType.trigger)
    initialExecState "boom" [] rfl rfl rfl)
  have h2 := c3_error_routing.2 exFailA wfBranch [] rfl
  exact ⟨rfl, rfl, rfl, h1.1, h1.2.1, rfl, h2.1⟩

/-- C4: with the engine configured for `maxConc` concurrent executions, in
every reachable state of the run/permit system at most `maxConc` runs have
status `running`: acquiring the counting permit (capacity `maxConc`) is the
only step that sets `running`, and a run that cannot acquire stays
`pending`. -/
theorem c4_concurrency_bound (maxConc : Nat) (s : SysState)
    (h : SysReach maxConc s) : countRunning s.runs ≤ maxConc := by
  obtain ⟨hc, hr⟩ := sysReach_inv maxConc s h
  have h1 : countRunning s.runs ≤ countHolding s.runs := by
    refine List.countP_mono_left ?_
    intro r hm hp
    exact decide_eq_true (hr r hm (of_decide_eq_true hp))
  omega

/-- C4 witness: with capacity 1, after spawning a run that acquired the
permit and a second run that is still waiting, exactly one run is
`running` and the bound holds. -/
theorem c4_concurrency_bound_witness :
    SysReach 1 ⟨0, [⟨ExecutionStatus.running, RunPhase.holding⟩,
                    ⟨ExecutionStatus.pending, RunPhase.waiting⟩]⟩ ∧
    countRunning [⟨ExecutionStatus.running, RunPhase.holding⟩,
                  ⟨ExecutionStatus.pending, RunPhase.waiting⟩] ≤ 1 := by
  have s1 : SysReach 1 ⟨1, [⟨ExecutionStatus.pending, RunPhase.waiting⟩]⟩ :=
    SysReach.step SysReach.init (SysStep.spawn 1 [])
  have s2 : SysReach 1 ⟨0, [⟨ExecutionStatus.running, RunPhase.holding⟩]⟩ :=
    SysReach.step s1 (SysStep.acquire 0 [] [])
  have s3 : SysReach 1 ⟨0, [⟨ExecutionStatus.running, RunPhase.holding⟩,
      ⟨ExecutionStatus.pending, RunPhase.waiting⟩]⟩ :=
    SysReach.step s2 (SysStep.spawn 0 [⟨ExecutionStatus.running, RunPhase.holding⟩])
  exact ⟨s3, c4_concurrency_bound 1 _ s3⟩

/-- C7: the graph traversal terminates on every finite workflow, cycles
included: a node id already in `execution.results` returns immediately, so
each node is entered at most once and the recursion depth never needs to
exceed the node count — any fuel beyond `w.nodes.length` computes the same
state as fuel `w.nodes.length + 1`. -/
theorem c7_termination (ex : ExecutorFn) (w : Workflow) (input : List (String × JValue))
    (fuel : Nat) (n : Node) (st : ExecState)
    (hn : n ∈ w.nodes) (hfuel : w.nodes.length < fuel) :
    executeNode ex w input fuel n st =
      executeNode ex w input (w.nodes.length + 1) n st := by
  have hR : remainingNodes w st ≤ w.nodes.length := by
    have h1 : remainingNodes w st ≤ (nodeIdsF w).card :=
      Finset.card_le_card (Finset.sdiff_subset)
    have h2 : (nodeIdsF w).card ≤ w.nodes.length := by
      have := (w.nodes.map Node.id).toFinset_card_le
      simpa [nodeIdsF] using this
    omega
  exact executeNode_fuel_stable ex w input w.nodes.length n st fuel (w.nodes.length + 1)
    hn hR hfuel (Nat.lt_succ_self _)

/-- C7 witness: on the self-loop workflow, fuel 5 and the canonical fuel
`|nodes| + 1 = 2` agree. -/
theorem c7_termination_witness :
    mkPlainNode "A" NodeType.trigger ∈ wfCyclic.nodes ∧
    wfCyclic.nodes.length < 5 ∧
    executeNode exAlwaysOk wfCyclic [] 5 (mkPlainNode "A" NodeType.trigger)
        initialExecState =
      executeNode exAlwaysOk wfCyclic [] (wfCyclic.nodes.length + 1)
        (mkPlainNode "A" NodeType.trigger) initialExecState := by
  have hmem : mkPlainNode "A" NodeType.trigger ∈ wfCyclic.nodes :=
    List.mem_cons_self _ _
  exact ⟨hmem, by decide,
    c7_termination exAlwaysOk wfCyclic [] 5 (mkPlainNode "A" NodeType.trigger)
      initialExecState hmem (by decide)⟩

/-- C9: every successful `file_reader` read opens a direct child of the
configured storage root: the resolved path is `storage_path` + `"/"` + the
basename of the input path, the basename contains no separator (so `..`
and directory components in the middle of the path are stripped), and under
POSIX directory semantics a successful read rules out the residual escaping
basenames `""`, `"."`, `".."`; `database_query` always uses the fixed file
`temp.db` directly inside the root. -/
theorem c9_storage_scoping :
    (∀ (fs : String → Option FsNode) (storagePath path content : String),
      PosixDirSemantics fs →
      storagePath ≠ "" → storagePath.data.getLast? ≠ some '/' →
      fileReader fs storagePath path = Except.ok content →
      ∃ b : String, fileReaderResolve storagePath path = storagePath ++ "/" ++ b ∧
        '/' ∉ b.data ∧ b ≠ "" ∧ b ≠ "." ∧ b ≠ "..") ∧
    (∀ storagePath : String, storagePath ≠ "" → storagePath.data.getLast? ≠ some '/' →
      databaseQueryPath storagePath = storagePath ++ "/" ++ "temp.db") := by
  constructor
  · intro fs storagePath path content hposix hs1 hs2 hread
    by_cases hpath : path = ""
    · rw [fileReader, if_pos hpath] at hread
      exact absurd hread (by simp)
    · rw [fileReader, if_neg hpath] at hread
      have hbslash : '/' ∉ (basename path).data := basename_no_slash path
      have hres : fileReaderResolve storagePath path =
          storagePath ++ "/" ++ basename path :=
        pathJoin_of_plain storagePath (basename path) hs2 hs1
          (head_ne_slash_of_no_slash _ hbslash)
      refine ⟨basename path, hres, hbslash, ?_⟩
      have hfile : ∃ c, fs (fileReaderResolve storagePath path) = some (FsNode.file c) := by
        cases hfs : fs (fileReaderResolve storagePath path) with
        | none => rw [hfs] at hread; exact absurd hread (by simp)
        | some v =>
          cases v with
          | dir => rw [hfs] at hread; exact absurd hread (by simp)
          | file c => exact ⟨c, rfl⟩
      obtain ⟨c, hfs⟩ := hfile
      have hbq : basename (fileReaderResolve storagePath path) = basename path := by
        rw [hres]
        exact basename_append_no_slash storagePath (basename path) hbslash
      constructor
      · intro hb
        exact hposix (fileReaderResolve storagePath path)
          (Or.inl (by rw [hbq, hb])) c hfs
      constructor
      · intro hb
        exact hposix (fileReaderResolve storagePath path)
          (Or.inr (Or.inl (by rw [hbq, hb]))) c hfs
      · intro hb
        exact hposix (fileReaderResolve storagePath path)
          (Or.inr (Or.inr (by rw [hbq, hb]))) c hfs
  · intro storagePath h1 h2
    exact pathJoin_of_plain storagePath "temp.db" h2 h1 (by decide)

/-- C9 witness: a traversal-shaped input path is reduced to its basename
and read from directly inside the root; the fixed query database path also
sits directly inside the root. -/
theorem c9_storage_scoping_witness :
    PosixDirSemantics fsDemo ∧
    ("/data" : String) ≠ "" ∧
    ("/data" : String).data.getLast? ≠ some '/' ∧
    fileReader fsDemo "/data" "../secret/../notes.txt" = Except.ok "hello" ∧
    (∃ b : String,
      fileReaderResolve "/data" "../secret/../notes.txt" = "/data" ++ "/" ++ b ∧
        '/' ∉ b.data ∧ b ≠ "" ∧ b ≠ "." ∧ b ≠ "..") ∧
    databaseQueryPath "/data" = "/data" ++ "/" ++ "temp.db" := by
  have hposix : PosixDirSemantics fsDemo := by
    intro q hbad c hc
    simp only [fsDemo] at hc
    by_cases h1 : q = "/data/notes.txt"
    · subst h1
      rcases hbad with hb | hb | hb <;> revert hb <;> decide
    · by_cases h2 : q = "/data"
      · rw [if_neg h1, if_pos h2] at hc
        exact FsNode.noConfusion (Option.some.inj hc)
      · rw [if_neg h1, if_neg h2] at hc
        exact Option.noConfusion hc
  exact ⟨hposix, by decide, by decide, rfl,
    c9_storage_scoping.1 fsDemo "/data" "../secret/../notes.txt" "hello" hposix
      (by decide) (by decide) rfl,
    c9_storage_scoping.2 "/data" (by decide) (by decide)⟩

end OhsSpec
